import Mathlib

/-!
Shallow embedding of the contact-field extractor of src/server.js
(function parseCardText, lines 24-102) and proofs about it.

Strings are modelled as lists of characters; the JavaScript regular
expressions of the source are modelled by executable Boolean matchers
proved below to have the structural properties the claims need.
-/

/-- The character class of the JavaScript regex escape backslash-s
    (WhiteSpace plus LineTerminator), which is also the set trimmed by
    String.prototype.trim. -/
def jsWhitespace (c : Char) : Bool :=
  c = ' ' || c = '\t' || c = '\n' || c = '\r' ||
  c.toNat = 11 || c.toNat = 12 ||
  c.toNat = 0xa0 || c.toNat = 0x1680 ||
  (decide (0x2000 ≤ c.toNat) && decide (c.toNat ≤ 0x200a)) ||
  c.toNat = 0x2028 || c.toNat = 0x2029 || c.toNat = 0x202f ||
  c.toNat = 0x205f || c.toNat = 0x3000 || c.toNat = 0xfeff

/-- The character class of the JavaScript regex escape backslash-d. -/
def jsDigit (c : Char) : Bool :=
  decide (48 ≤ c.toNat) && decide (c.toNat ≤ 57)

/-- The bracket class of the phone regex of server.js line 40:
    digits, whitespace, hyphen and parentheses. -/
def phoneClassChar (c : Char) : Bool :=
  jsDigit c || jsWhitespace c || c = '-' || c = '(' || c = ')'

/-- Case folding used to model both the i-flag of the regexes and the
    toLowerCase call of server.js line 78.  It covers the simple
    one-to-one case mappings of every character that occurs in the fixed
    pattern sets of the source (ASCII letters and the German letters
    a-umlaut, o-umlaut, u-umlaut); on those characters the regex
    canonicalisation and String.prototype.toLowerCase agree. -/
def jsToLower (c : Char) : Char :=
  if c = 'A' then 'a' else if c = 'B' then 'b' else if c = 'C' then 'c'
  else if c = 'D' then 'd' else if c = 'E' then 'e' else if c = 'F' then 'f'
  else if c = 'G' then 'g' else if c = 'H' then 'h' else if c = 'I' then 'i'
  else if c = 'J' then 'j' else if c = 'K' then 'k' else if c = 'L' then 'l'
  else if c = 'M' then 'm' else if c = 'N' then 'n' else if c = 'O' then 'o'
  else if c = 'P' then 'p' else if c = 'Q' then 'q' else if c = 'R' then 'r'
  else if c = 'S' then 's' else if c = 'T' then 't' else if c = 'U' then 'u'
  else if c = 'V' then 'v' else if c = 'W' then 'w' else if c = 'X' then 'x'
  else if c = 'Y' then 'y' else if c = 'Z' then 'z'
  else if c = 'Ä' then 'ä' else if c = 'Ö' then 'ö' else if c = 'Ü' then 'ü'
  else c

/-- Case-folded copy of a line, modelling lowercasing for the
    case-insensitive tests. -/
def lowerL (l : List Char) : List Char := l.map jsToLower

/-- Does the second list start with the first one (exact characters)? -/
def startsWithL : List Char → List Char → Bool
  | [], _ => true
  | _ :: _, [] => false
  | p :: ps, c :: cs => p = c && startsWithL ps cs

/-- Does the second list contain the first as a contiguous substring?
    Models JavaScript String.prototype.includes and containment
    matching of a literal regex alternative. -/
def containsSubL (pat : List Char) : List Char → Bool
  | [] => startsWithL pat []
  | c :: rest => startsWithL pat (c :: rest) || containsSubL pat rest

/-- Is the list non-empty with a non-whitespace head? -/
def headNonWs : List Char → Bool
  | [] => false
  | y :: _ => !jsWhitespace y

/-- After the literal at-sign the email regex needs one-or-more
    non-whitespace, a dot, then a non-whitespace character.  This matcher
    handles the part where the leading non-whitespace run may be empty:
    it holds iff the list starts with zero-or-more non-whitespace
    characters followed by a dot followed by a non-whitespace character. -/
def emailDot : List Char → Bool
  | [] => false
  | c :: rest => (c = '.' && headNonWs rest) || (!jsWhitespace c && emailDot rest)

/-- As emailDot, but the non-whitespace run before the dot must be
    non-empty: the part of the email regex after the at-sign. -/
def emailTail : List Char → Bool
  | [] => false
  | c :: rest => !jsWhitespace c && emailDot rest

/-- A match of the email regex starting at the head: a non-whitespace
    character, an at-sign, then emailTail. -/
def emailHere : List Char → Bool
  | c :: d :: rest => !jsWhitespace c && d = '@' && emailTail rest
  | _ => false

/-- Test of the email regex of server.js line 39 (non-whitespace run,
    at-sign, non-whitespace run, dot, non-whitespace run, unanchored):
    true iff a match starts at some position. -/
def emailTestL : List Char → Bool
  | [] => false
  | c :: rest => emailHere (c :: rest) || emailTestL rest

/-- First n characters exist and lie in the phone bracket class. -/
def nClassRun : Nat → List Char → Bool
  | 0, _ => true
  | _ + 1, [] => false
  | n + 1, c :: rest => phoneClassChar c && nClassRun n rest

/-- Test of the phone regex of server.js line 40 (optional plus, a digit,
    then six-or-more characters from the bracket class, unanchored):
    true iff some position holds a digit immediately followed by six
    bracket-class characters.  The optional leading plus never affects
    whether a match exists. -/
def phoneTestL : List Char → Bool
  | [] => false
  | c :: rest => (jsDigit c && nClassRun 6 rest) || phoneTestL rest

/-- Test of the website regex of server.js line 41: the line contains,
    case-insensitively, the substring www-dot, or http-colon-slash-slash,
    or https-colon-slash-slash.  The regex is unanchored, so the scheme
    may occur anywhere in the line. -/
def websiteTestL (l : List Char) : Bool :=
  containsSubL ("www.".data) (lowerL l) ||
  containsSubL ("http://".data) (lowerL l) ||
  containsSubL ("https://".data) (lowerL l)

/-- The role-title alternatives of the name-filter regex of
    server.js lines 47-52. -/
def roleWords : List (List Char) :=
  ["geschäftsführer".data, "ceo".data, "manager".data, "director".data,
   "founder".data, "owner".data, "sales".data, "marketing".data]

/-- Test of the role-title regex: case-insensitive containment of any
    role word. -/
def roleTestL (l : List Char) : Bool :=
  roleWords.any (fun w => containsSubL w (lowerL l))

/-- COMPANY_BLACKLIST of server.js lines 65-74 (same words as the role
    regex); the company pass tests containment in the lowercased line. -/
def companyBlacklistWords : List (List Char) := roleWords

/-- Blacklist test of server.js line 84. -/
def companyBlacklistTestL (l : List Char) : Bool :=
  companyBlacklistWords.any (fun w => containsSubL w (lowerL l))

/-- The address-indicator alternatives of the regex of
    server.js lines 85-90. -/
def addressWords : List (List Char) :=
  ["straße".data, "str.".data, "platz".data, "road".data, "street".data,
   "ave".data, "blvd".data, "münster".data, "berlin".data,
   "deutschland".data, "germany".data]

/-- Test of the address-indicator regex (case-insensitive containment). -/
def addressTestL (l : List Char) : Bool :=
  addressWords.any (fun w => containsSubL w (lowerL l))

/-- text.split on a newline character: every occurrence splits, empty
    segments are kept (server.js line 28). -/
def splitNl : List Char → List (List Char)
  | [] => [[]]
  | c :: rest =>
    if c = '\n' then [] :: splitNl rest
    else
      match splitNl rest with
      | [] => [[c]]
      | s :: ss => (c :: s) :: ss

/-- String.prototype.trim (server.js line 29): drop leading and trailing
    JavaScript whitespace. -/
def jsTrimL (l : List Char) : List Char :=
  ((l.dropWhile jsWhitespace).reverse.dropWhile jsWhitespace).reverse

/-- The trimmed non-empty lines of the input (server.js lines 27-30). -/
def linesOf (text : List Char) : List (List Char) :=
  ((splitNl text).map jsTrimL).filter (fun l => !l.isEmpty)

/-- Worker for splitWs: acc holds the characters of the token currently
    being read, in reverse order. -/
def splitWsAux : List Char → List Char → List (List Char)
  | [], acc => if acc.isEmpty then [] else [acc.reverse]
  | c :: rest, acc =>
    if jsWhitespace c then
      if acc.isEmpty then splitWsAux rest [] else acc.reverse :: splitWsAux rest []
    else splitWsAux rest (c :: acc)

/-- nameLine.split on a whitespace regex followed by filter(Boolean)
    (server.js line 55): the maximal non-whitespace runs, in order. -/
def splitWs (l : List Char) : List (List Char) := splitWsAux l []

/-- Array.prototype.join with a single-space separator
    (server.js line 59). -/
def joinSp : List (List Char) → List Char
  | [] => []
  | [t] => t
  | t :: ts => t ++ ' ' :: joinSp ts

/-- The four chained name filters of server.js lines 43-52. -/
def filteredForName (lines : List (List Char)) : List (List Char) :=
  ((((lines.filter (fun l => !emailTestL l)).filter
      (fun l => !websiteTestL l)).filter
      (fun l => !phoneTestL l)).filter
      (fun l => !roleTestL l))

/-- The name extraction of server.js lines 54-63: first component is
    firstName, second is lastName, before the final trim.  nameLine of
    line 54 is the head of the filtered list (or empty), parts of
    line 55 is splitWs of it; on fewer than two parts the source falls
    back to positions 0 and 1 of the filtered list. -/
def namePair (lines : List (List Char)) : List Char × List Char :=
  if (splitWs ((filteredForName lines).headD [])).length ≥ 2 then
    ((splitWs ((filteredForName lines).headD [])).headD [],
     joinSp ((splitWs ((filteredForName lines).headD [])).drop 1))
  else
    ((filteredForName lines).getD 0 [], (filteredForName lines).getD 1 [])

/-- The company-candidate predicate of server.js lines 76-92, with the
    checks in source order. -/
def companyOK (firstName : List Char) (l : List Char) : Bool :=
  !l.isEmpty &&
  !(!firstName.isEmpty && containsSubL firstName l) &&
  !emailTestL l && !websiteTestL l && !phoneTestL l &&
  !companyBlacklistTestL l && !addressTestL l

/-- The record returned by parseCardText on non-empty input:
    six string fields (server.js lines 94-101). -/
structure ContactRecord where
  firstName : String
  lastName : String
  company : String
  phone : String
  email : String
  website : String
deriving DecidableEq, Repr

/-- The body of parseCardText on the already split, trimmed, non-empty
    lines (server.js lines 32-101): email, phone and website are the
    first lines satisfying their tests (or empty), the name pair comes
    from namePair, company from the companyOK search, and every field is
    trimmed before being returned (lines 94-101). -/
def parseCardLines (lines : List (List Char)) : ContactRecord :=
  { firstName := String.mk (jsTrimL (namePair lines).1)
    lastName := String.mk (jsTrimL (namePair lines).2)
    company :=
      String.mk (jsTrimL ((lines.find? (companyOK (namePair lines).1)).getD []))
    phone := String.mk (jsTrimL ((lines.find? phoneTestL).getD []))
    email := String.mk (jsTrimL ((lines.find? emailTestL).getD []))
    website := String.mk (jsTrimL ((lines.find? websiteTestL).getD [])) }

/-- parseCardText of server.js lines 24-102.  On a falsy argument (the
    empty string) the source returns the empty object, which has none of
    the six fields; that is modelled by the none case. -/
def parseCardText (text : String) : Option ContactRecord :=
  if text = "" then none
  else some (parseCardLines (linesOf text.data))

/-- parseCardText including an absent (undefined) argument, which is
    falsy in JavaScript exactly like the empty string. -/
def parseCard (input : Option String) : Option ContactRecord :=
  match input with
  | none => none
  | some t => parseCardText t

/-- Modelled from the spec, section 4 step 3 as literally claimed in C5:
    a line qualifies when it contains www-dot anywhere or STARTS with
    http-colon-slash-slash or https-colon-slash-slash
    (case-insensitive). -/
def websiteSpecOrig (l : List Char) : Bool :=
  containsSubL ("www.".data) (lowerL l) ||
  startsWithL ("http://".data) (lowerL l) ||
  startsWithL ("https://".data) (lowerL l)

/-- The amended website rule: a line qualifies when it contains,
    anywhere and case-insensitively, www-dot or http-colon-slash-slash
    or https-colon-slash-slash. -/
def websiteSpecAmended (l : List Char) : Bool :=
  containsSubL ("www.".data) (lowerL l) ||
  containsSubL ("http://".data) (lowerL l) ||
  containsSubL ("https://".data) (lowerL l)

/-! ### Equation lemmas for splitWs in span form -/

theorem splitWs_nil : splitWs [] = [] := rfl

theorem splitWs_cons_ws {c : Char} (rest : List Char)
    (h : jsWhitespace c = true) : splitWs (c :: rest) = splitWs rest := by
  simp [splitWs, splitWsAux, h]

theorem splitWsAux_acc (rest : List Char) :
    ∀ acc : List Char, acc ≠ [] →
      splitWsAux rest acc =
        (acc.reverse ++ rest.takeWhile (fun d => !jsWhitespace d)) ::
          splitWs (rest.dropWhile (fun d => !jsWhitespace d)) := by
  induction rest with
  | nil => intro acc h; simp [splitWsAux, splitWs, h]
  | cons d rest2 ih =>
    intro acc h
    by_cases hd : jsWhitespace d = true
    · simp [splitWsAux, hd, h, List.takeWhile_cons, List.dropWhile_cons, splitWs]
    · simp only [Bool.not_eq_true] at hd
      simp [splitWsAux, hd, ih (d :: acc) (by simp), List.takeWhile_cons,
        List.dropWhile_cons]

theorem splitWs_cons_nonws {c : Char} (rest : List Char)
    (h : jsWhitespace c = false) :
    splitWs (c :: rest) =
      (c :: rest.takeWhile (fun d => !jsWhitespace d)) ::
        splitWs (rest.dropWhile (fun d => !jsWhitespace d)) := by
  simp [splitWs, splitWsAux, h]
  rw [show splitWsAux rest [c] = _ from splitWsAux_acc rest [c] (by simp)]
  simp [splitWs]

/-! ### Appending on the right or the left preserves the matchers -/

theorem startsWithL_append {pat s : List Char} (v : List Char)
    (h : startsWithL pat s = true) : startsWithL pat (s ++ v) = true := by
  induction pat generalizing s with
  | nil => rfl
  | cons p ps ih =>
    cases s with
    | nil => simp [startsWithL] at h
    | cons c cs =>
      simp only [List.cons_append, startsWithL, Bool.and_eq_true] at h ⊢
      exact ⟨h.1, ih h.2⟩

theorem containsSubL_append {pat s : List Char} (v : List Char)
    (h : containsSubL pat s = true) : containsSubL pat (s ++ v) = true := by
  induction s with
  | nil =>
    cases pat with
    | nil => cases v <;> simp [containsSubL, startsWithL]
    | cons p ps => simp [containsSubL, startsWithL] at h
  | cons c cs ih =>
    simp only [List.cons_append, containsSubL, Bool.or_eq_true] at h ⊢
    rcases h with h | h
    · exact Or.inl (startsWithL_append v h)
    · exact Or.inr (ih h)

theorem containsSubL_prepend {pat t : List Char} (u : List Char)
    (h : containsSubL pat t = true) : containsSubL pat (u ++ t) = true := by
  induction u with
  | nil => exact h
  | cons c cs ih =>
    simp only [List.cons_append, containsSubL, Bool.or_eq_true]
    exact Or.inr ih

theorem headNonWs_append {s : List Char} (v : List Char)
    (h : headNonWs s = true) : headNonWs (s ++ v) = true := by
  cases s with
  | nil => simp [headNonWs] at h
  | cons y ys => exact h

theorem emailDot_append {s : List Char} (v : List Char)
    (h : emailDot s = true) : emailDot (s ++ v) = true := by
  induction s with
  | nil => simp [emailDot] at h
  | cons c cs ih =>
    simp only [List.cons_append, emailDot, Bool.or_eq_true, Bool.and_eq_true] at h ⊢
    rcases h with ⟨h1, h2⟩ | ⟨h1, h2⟩
    · exact Or.inl ⟨h1, headNonWs_append v h2⟩
    · exact Or.inr ⟨h1, ih h2⟩

theorem emailTail_append {s : List Char} (v : List Char)
    (h : emailTail s = true) : emailTail (s ++ v) = true := by
  cases s with
  | nil => simp [emailTail] at h
  | cons c cs =>
    simp only [List.cons_append, emailTail, Bool.and_eq_true] at h ⊢
    exact ⟨h.1, emailDot_append v h.2⟩

theorem emailHere_append {s : List Char} (v : List Char)
    (h : emailHere s = true) : emailHere (s ++ v) = true := by
  match s with
  | [] => simp [emailHere] at h
  | [c] => simp [emailHere] at h
  | c :: d :: rest =>
    simp only [List.cons_append, emailHere, Bool.and_eq_true] at h ⊢
    exact ⟨⟨h.1.1, h.1.2⟩, emailTail_append v h.2⟩

theorem emailTestL_append {s : List Char} (v : List Char)
    (h : emailTestL s = true) : emailTestL (s ++ v) = true := by
  induction s with
  | nil => simp [emailTestL] at h
  | cons c cs ih =>
    simp only [List.cons_append, emailTestL, Bool.or_eq_true] at h ⊢
    rcases h with h | h
    · exact Or.inl (by simpa using emailHere_append v h)
    · exact Or.inr (ih h)

theorem emailTestL_prepend {t : List Char} (u : List Char)
    (h : emailTestL t = true) : emailTestL (u ++ t) = true := by
  induction u with
  | nil => exact h
  | cons c cs ih =>
    simp only [List.cons_append, emailTestL, Bool.or_eq_true]
    exact Or.inr ih

theorem nClassRun_append {n : Nat} {s : List Char} (v : List Char)
    (h : nClassRun n s = true) : nClassRun n (s ++ v) = true := by
  induction n generalizing s with
  | zero => rfl
  | succ m ih =>
    cases s with
    | nil => simp [nClassRun] at h
    | cons c cs =>
      simp only [List.cons_append, nClassRun, Bool.and_eq_true] at h ⊢
      exact ⟨h.1, ih h.2⟩

theorem phoneTestL_append {s : List Char} (v : List Char)
    (h : phoneTestL s = true) : phoneTestL (s ++ v) = true := by
  induction s with
  | nil => simp [phoneTestL] at h
  | cons c cs ih =>
    simp only [List.cons_append, phoneTestL, Bool.or_eq_true, Bool.and_eq_true] at h ⊢
    rcases h with ⟨h1, h2⟩ | h
    · exact Or.inl ⟨h1, nClassRun_append v h2⟩
    · exact Or.inr (ih h)

theorem phoneTestL_prepend {t : List Char} (u : List Char)
    (h : phoneTestL t = true) : phoneTestL (u ++ t) = true := by
  induction u with
  | nil => exact h
  | cons c cs ih =>
    simp only [List.cons_append, phoneTestL, Bool.or_eq_true]
    exact Or.inr ih

theorem lowerL_append (s v : List Char) : lowerL (s ++ v) = lowerL s ++ lowerL v := by
  simp [lowerL]

theorem websiteTestL_append {s : List Char} (v : List Char)
    (h : websiteTestL s = true) : websiteTestL (s ++ v) = true := by
  simp only [websiteTestL, lowerL_append, Bool.or_eq_true] at h ⊢
  rcases h with (h | h) | h
  · exact Or.inl (Or.inl (containsSubL_append _ h))
  · exact Or.inl (Or.inr (containsSubL_append _ h))
  · exact Or.inr (containsSubL_append _ h)

theorem websiteTestL_prepend {t : List Char} (u : List Char)
    (h : websiteTestL t = true) : websiteTestL (u ++ t) = true := by
  simp only [websiteTestL, lowerL_append, Bool.or_eq_true] at h ⊢
  rcases h with (h | h) | h
  · exact Or.inl (Or.inl (containsSubL_prepend _ h))
  · exact Or.inl (Or.inr (containsSubL_prepend _ h))
  · exact Or.inr (containsSubL_prepend _ h)

theorem roleTestL_append {s : List Char} (v : List Char)
    (h : roleTestL s = true) : roleTestL (s ++ v) = true := by
  simp only [roleTestL, List.any_eq_true] at h ⊢
  obtain ⟨w, hw, hc⟩ := h
  exact ⟨w, hw, by rw [lowerL_append]; exact containsSubL_append _ hc⟩

theorem roleTestL_prepend {t : List Char} (u : List Char)
    (h : roleTestL t = true) : roleTestL (u ++ t) = true := by
  simp only [roleTestL, List.any_eq_true] at h ⊢
  obtain ⟨w, hw, hc⟩ := h
  exact ⟨w, hw, by rw [lowerL_append]; exact containsSubL_prepend _ hc⟩

/-! ### Whitespace-expansion relation

WsCore s t holds when t is obtained from s by replacing each single
space of s by a non-empty run of whitespace characters and appending
trailing whitespace, keeping every non-whitespace character.  The join
of the whitespace-split tokens of a line relates to the line itself this
way (after its leading whitespace), and each matcher of the source is
transported along the relation. -/

inductive WsCore : List Char → List Char → Prop
  | trail (w : List Char) (hw : ∀ c ∈ w, jsWhitespace c = true) : WsCore [] w
  | keep (c : Char) (s t : List Char) (hc : jsWhitespace c = false)
      (h : WsCore s t) : WsCore (c :: s) (c :: t)
  | run (w : List Char) (s t : List Char) (hw : ∀ c ∈ w, jsWhitespace c = true)
      (hne : w ≠ []) (h : WsCore s t) : WsCore (' ' :: s) (w ++ t)

theorem wsCore_cons_inv {c : Char} {s t : List Char}
    (hc : jsWhitespace c = false) (h : WsCore (c :: s) t) :
    ∃ t2, t = c :: t2 ∧ WsCore s t2 := by
  cases h with
  | keep _ _ t2 _ h2 => exact ⟨t2, rfl, h2⟩
  | run w _ t2 hw hne h2 => exact absurd hc (by decide)

theorem nClassRun_le {m n : Nat} (hmn : m ≤ n) :
    ∀ {l : List Char}, nClassRun n l = true → nClassRun m l = true := by
  induction n generalizing m with
  | zero => intro l h; interval_cases m; exact h
  | succ k ih =>
    intro l h
    cases m with
    | zero => rfl
    | succ j =>
      cases l with
      | nil => simp [nClassRun] at h
      | cons c cs =>
        simp only [nClassRun, Bool.and_eq_true] at h ⊢
        exact ⟨h.1, ih (Nat.succ_le_succ_iff.1 hmn) h.2⟩

theorem nClassRun_all_append {w : List Char}
    (hw : ∀ c ∈ w, phoneClassChar c = true) {k : Nat} {t : List Char}
    (ht : nClassRun k t = true) : nClassRun (w.length + k) (w ++ t) = true := by
  induction w with
  | nil => simpa using ht
  | cons c cs ih =>
    simp only [List.length_cons, List.cons_append]
    have : cs.length + k + 1 = cs.length + 1 + k := by omega
    rw [show cs.length + 1 + k = (cs.length + k) + 1 by omega]
    simp only [nClassRun, Bool.and_eq_true]
    exact ⟨hw c (by simp), ih (fun d hd => hw d (by simp [hd]))⟩

theorem phoneClassChar_of_ws {c : Char} (h : jsWhitespace c = true) :
    phoneClassChar c = true := by
  simp [phoneClassChar, h]

theorem wsCore_nClassRun {s t : List Char} (h : WsCore s t) :
    ∀ n, nClassRun n s = true → nClassRun n t = true := by
  induction h with
  | trail w hw =>
    intro n hn
    cases n with
    | zero => rfl
    | succ m =>
      simp [nClassRun] at hn
  | keep c s t hc h ih =>
    intro n hn
    cases n with
    | zero => rfl
    | succ m =>
      simp only [nClassRun, Bool.and_eq_true] at hn ⊢
      exact ⟨hn.1, ih m hn.2⟩
  | run w s t hw hne h ih =>
    intro n hn
    cases n with
    | zero => rfl
    | succ m =>
      simp only [nClassRun, Bool.and_eq_true] at hn
      have hwl : 1 ≤ w.length := by
        cases w with
        | nil => exact absurd rfl hne
        | cons a b => simp
      refine nClassRun_le (show m + 1 ≤ w.length + m by omega) ?_
      exact nClassRun_all_append (fun c hc => phoneClassChar_of_ws (hw c hc)) (ih m hn.2)

theorem wsCore_phone {s t : List Char} (h : WsCore s t)
    (hs : phoneTestL s = true) : phoneTestL t = true := by
  induction h with
  | trail w hw => simp [phoneTestL] at hs
  | keep c s t hc h ih =>
    simp only [phoneTestL, Bool.or_eq_true, Bool.and_eq_true] at hs ⊢
    rcases hs with ⟨h1, h2⟩ | h2
    · exact Or.inl ⟨h1, wsCore_nClassRun h 6 h2⟩
    · exact Or.inr (ih h2)
  | run w s t hw hne h ih =>
    simp only [phoneTestL, Bool.or_eq_true, Bool.and_eq_true] at hs
    rcases hs with ⟨h1, _⟩ | h2
    · exact absurd h1 (by decide)
    · exact phoneTestL_prepend w (ih h2)

theorem wsCore_headNonWs {s t : List Char} (h : WsCore s t)
    (hs : headNonWs s = true) : headNonWs t = true := by
  cases s with
  | nil => simp [headNonWs] at hs
  | cons y ys =>
    have hy : jsWhitespace y = false := by simpa [headNonWs] using hs
    obtain ⟨t2, rfl, _⟩ := wsCore_cons_inv hy h
    simpa [headNonWs] using hs

theorem wsCore_emailDot {s t : List Char} (h : WsCore s t)
    (hs : emailDot s = true) : emailDot t = true := by
  induction h with
  | trail w hw => simp [emailDot] at hs
  | keep c s t hc h ih =>
    simp only [emailDot, Bool.or_eq_true, Bool.and_eq_true,
      decide_eq_true_eq] at hs ⊢
    rcases hs with ⟨h1, h2⟩ | ⟨h1, h2⟩
    · exact Or.inl ⟨h1, wsCore_headNonWs h h2⟩
    · exact Or.inr ⟨h1, ih h2⟩
  | run w s t hw hne h ih =>
    have h0 : emailDot (' ' :: s) = false := rfl
    rw [h0] at hs
    exact Bool.noConfusion hs

theorem wsCore_emailTail {s t : List Char} (h : WsCore s t)
    (hs : emailTail s = true) : emailTail t = true := by
  cases s with
  | nil => simp [emailTail] at hs
  | cons c cs =>
    simp only [emailTail, Bool.and_eq_true] at hs
    have hc : jsWhitespace c = false := by simpa using hs.1
    obtain ⟨t2, rfl, h2⟩ := wsCore_cons_inv hc h
    simp only [emailTail, Bool.and_eq_true]
    exact ⟨hs.1, wsCore_emailDot h2 hs.2⟩

theorem wsCore_email {s t : List Char} (h : WsCore s t)
    (hs : emailTestL s = true) : emailTestL t = true := by
  induction h with
  | trail w hw => simp [emailTestL] at hs
  | keep c s t hc h ih =>
    simp only [emailTestL, Bool.or_eq_true] at hs ⊢
    rcases hs with h1 | h2
    · cases s with
      | nil => simp [emailHere] at h1
      | cons d s2 =>
        simp only [emailHere, Bool.and_eq_true, decide_eq_true_eq] at h1
        obtain ⟨⟨hnc, rfl⟩, htl⟩ := h1
        obtain ⟨t2, rfl, hcore⟩ := wsCore_cons_inv (by decide) h
        refine Or.inl ?_
        have htl2 := wsCore_emailTail hcore htl
        simp [emailHere, hnc, htl2]
    · exact Or.inr (ih h2)
  | run w s t hw hne h ih =>
    simp only [emailTestL, Bool.or_eq_true] at hs
    rcases hs with h1 | h2
    · cases s with
      | nil => simp [emailHere] at h1
      | cons d s2 =>
        simp only [emailHere, Bool.and_eq_true, decide_eq_true_eq] at h1
        exact absurd h1.1.1 (by decide)
    · exact emailTestL_prepend w (ih h2)

theorem wsCore_startsWith : ∀ {pat : List Char},
    (∀ c ∈ pat, jsWhitespace c = false) →
    ∀ {s t : List Char}, WsCore s t → startsWithL pat s = true →
      startsWithL pat t = true := by
  intro pat
  induction pat with
  | nil => intro _ s t _ _; rfl
  | cons p ps ih =>
    intro hpat s t h hs
    cases s with
    | nil => simp [startsWithL] at hs
    | cons c s2 =>
      simp only [startsWithL, Bool.and_eq_true, decide_eq_true_eq] at hs
      obtain ⟨rfl, h2⟩ := hs
      obtain ⟨t2, rfl, hcore⟩ := wsCore_cons_inv (hpat p (by simp)) h
      have h3 := ih (fun d hd => hpat d (by simp [hd])) hcore h2
      simp [startsWithL, h3]

theorem wsCore_contains {pat : List Char} (hpne : pat ≠ [])
    (hpat : ∀ c ∈ pat, jsWhitespace c = false) :
    ∀ {s t : List Char}, WsCore s t → containsSubL pat s = true →
      containsSubL pat t = true := by
  intro s t h
  induction h with
  | trail w hw =>
    intro hs
    cases pat with
    | nil => exact absurd rfl hpne
    | cons p ps => simp [containsSubL, startsWithL] at hs
  | keep c s t hc h ih =>
    intro hs
    simp only [containsSubL, Bool.or_eq_true] at hs ⊢
    rcases hs with h1 | h2
    · exact Or.inl (wsCore_startsWith hpat (WsCore.keep c s t hc h) h1)
    · exact Or.inr (ih h2)
  | run w s t hw hne h ih =>
    intro hs
    simp only [containsSubL, Bool.or_eq_true] at hs
    rcases hs with h1 | h2
    · cases pat with
      | nil => exact absurd rfl hpne
      | cons p ps =>
        simp only [startsWithL, Bool.and_eq_true, decide_eq_true_eq] at h1
        have hp := hpat p (by simp)
        rw [h1.1] at hp
        exact absurd hp (by decide)
    · exact containsSubL_prepend w (ih h2)

theorem jsWhitespace_jsToLower (c : Char) :
    jsWhitespace (jsToLower c) = jsWhitespace c := by
  by_cases h1 : c = 'A'
  · subst h1; rfl
  by_cases h2 : c = 'B'
  · subst h2; rfl
  by_cases h3 : c = 'C'
  · subst h3; rfl
  by_cases h4 : c = 'D'
  · subst h4; rfl
  by_cases h5 : c = 'E'
  · subst h5; rfl
  by_cases h6 : c = 'F'
  · subst h6; rfl
  by_cases h7 : c = 'G'
  · subst h7; rfl
  by_cases h8 : c = 'H'
  · subst h8; rfl
  by_cases h9 : c = 'I'
  · subst h9; rfl
  by_cases h10 : c = 'J'
  · subst h10; rfl
  by_cases h11 : c = 'K'
  · subst h11; rfl
  by_cases h12 : c = 'L'
  · subst h12; rfl
  by_cases h13 : c = 'M'
  · subst h13; rfl
  by_cases h14 : c = 'N'
  · subst h14; rfl
  by_cases h15 : c = 'O'
  · subst h15; rfl
  by_cases h16 : c = 'P'
  · subst h16; rfl
  by_cases h17 : c = 'Q'
  · subst h17; rfl
  by_cases h18 : c = 'R'
  · subst h18; rfl
  by_cases h19 : c = 'S'
  · subst h19; rfl
  by_cases h20 : c = 'T'
  · subst h20; rfl
  by_cases h21 : c = 'U'
  · subst h21; rfl
  by_cases h22 : c = 'V'
  · subst h22; rfl
  by_cases h23 : c = 'W'
  · subst h23; rfl
  by_cases h24 : c = 'X'
  · subst h24; rfl
  by_cases h25 : c = 'Y'
  · subst h25; rfl
  by_cases h26 : c = 'Z'
  · subst h26; rfl
  by_cases h27 : c = 'Ä'
  · subst h27; rfl
  by_cases h28 : c = 'Ö'
  · subst h28; rfl
  by_cases h29 : c = 'Ü'
  · subst h29; rfl
  unfold jsToLower
  rw [if_neg h1, if_neg h2, if_neg h3, if_neg h4, if_neg h5, if_neg h6, if_neg h7, if_neg h8, if_neg h9, if_neg h10, if_neg h11, if_neg h12, if_neg h13, if_neg h14, if_neg h15, if_neg h16, if_neg h17, if_neg h18, if_neg h19, if_neg h20, if_neg h21, if_neg h22, if_neg h23, if_neg h24, if_neg h25, if_neg h26, if_neg h27, if_neg h28, if_neg h29]

theorem wsCore_lower {s t : List Char} (h : WsCore s t) :
    WsCore (lowerL s) (lowerL t) := by
  induction h with
  | trail w hw =>
    refine WsCore.trail (lowerL w) ?_
    intro c hc
    obtain ⟨d, hd, rfl⟩ := List.mem_map.1 hc
    rw [jsWhitespace_jsToLower]
    exact hw d hd
  | keep c s t hc h ih =>
    have : jsWhitespace (jsToLower c) = false := by
      rw [jsWhitespace_jsToLower]; exact hc
    simpa [lowerL] using WsCore.keep (jsToLower c) _ _ this ih
  | run w s t hw hne h ih =>
    have hsp : jsToLower ' ' = ' ' := rfl
    have hlw : ∀ c ∈ lowerL w, jsWhitespace c = true := by
      intro c hc
      obtain ⟨d, hd, rfl⟩ := List.mem_map.1 hc
      rw [jsWhitespace_jsToLower]
      exact hw d hd
    have hlne : lowerL w ≠ [] := by
      cases w with
      | nil => exact absurd rfl hne
      | cons a b => simp [lowerL]
    have := WsCore.run (lowerL w) _ _ hlw hlne ih
    simpa [lowerL, hsp] using this

theorem wsCore_website {s t : List Char} (h : WsCore s t)
    (hs : websiteTestL s = true) : websiteTestL t = true := by
  have hl := wsCore_lower h
  simp only [websiteTestL, Bool.or_eq_true] at hs ⊢
  rcases hs with (h1 | h1) | h1
  · exact Or.inl (Or.inl (wsCore_contains (by decide) (by decide) hl h1))
  · exact Or.inl (Or.inr (wsCore_contains (by decide) (by decide) hl h1))
  · exact Or.inr (wsCore_contains (by decide) (by decide) hl h1)

theorem roleWords_nonws :
    ∀ w ∈ roleWords, w ≠ [] ∧ ∀ c ∈ w, jsWhitespace c = false := by decide

theorem wsCore_role {s t : List Char} (h : WsCore s t)
    (hs : roleTestL s = true) : roleTestL t = true := by
  have hl := wsCore_lower h
  simp only [roleTestL, List.any_eq_true] at hs ⊢
  obtain ⟨w, hw, hc⟩ := hs
  exact ⟨w, hw, wsCore_contains (roleWords_nonws w hw).1 (roleWords_nonws w hw).2 hl hc⟩

/-! ### Structure of splitWs and the main join lemma -/

theorem joinSp_cons_cons (a b : List Char) (ts : List (List Char)) :
    joinSp (a :: b :: ts) = a ++ ' ' :: joinSp (b :: ts) := rfl

theorem dropWhile_head_false {α : Type} {p : α → Bool} :
    ∀ {l : List α} {d : α} {dtl : List α},
      l.dropWhile p = d :: dtl → p d = false := by
  intro l
  induction l with
  | nil => intro d dtl h; simp at h
  | cons c rest ih =>
    intro d dtl h
    rw [List.dropWhile_cons] at h
    split at h
    · exact ih h
    · next hc =>
      injection h with h1 h2
      subst h1
      simpa using hc

theorem splitWs_empty_allws :
    ∀ r : List Char, splitWs r = [] → ∀ c ∈ r, jsWhitespace c = true := by
  intro r
  induction r with
  | nil => intro _ c hc; cases hc
  | cons d rest ih =>
    intro h c hc
    by_cases hd : jsWhitespace d = true
    · rw [splitWs_cons_ws rest hd] at h
      rcases List.mem_cons.1 hc with rfl | hmem
      · exact hd
      · exact ih h c hmem
    · rw [splitWs_cons_nonws rest (by simpa using hd)] at h
      exact absurd h (by simp)

theorem wsCore_append_left {tk : List Char}
    (htk : ∀ c ∈ tk, jsWhitespace c = false) {s t : List Char}
    (h : WsCore s t) : WsCore (tk ++ s) (tk ++ t) := by
  induction tk with
  | nil => exact h
  | cons c cs ih =>
    exact WsCore.keep c _ _ (htk c (by simp))
      (ih (fun d hd => htk d (by simp [hd])))

theorem wsCore_joinSp_splitWs (l : List Char) :
    ∃ w rest, l = w ++ rest ∧ (∀ c ∈ w, jsWhitespace c = true) ∧
      WsCore (joinSp (splitWs l)) rest := by
  generalize hn : l.length = n
  induction n using Nat.strong_induction_on generalizing l with
  | _ n ih =>
    cases l with
    | nil =>
      exact ⟨[], [], rfl, by simp, WsCore.trail [] (by simp)⟩
    | cons c rest =>
      by_cases hc : jsWhitespace c = true
      · subst hn
        obtain ⟨w, r, hr, hw, hcore⟩ :=
          ih rest.length (by simp) rest rfl
        rw [splitWs_cons_ws rest hc]
        refine ⟨c :: w, r, by simp [hr], ?_, hcore⟩
        intro x hx
        rcases List.mem_cons.1 hx with rfl | hx2
        · exact hc
        · exact hw x hx2
      · have hc2 : jsWhitespace c = false := by simpa using hc
        rw [splitWs_cons_nonws rest hc2]
        refine ⟨[], c :: rest, rfl, by simp, ?_⟩
        have htk : ∀ d ∈ rest.takeWhile (fun d => !jsWhitespace d),
            jsWhitespace d = false := by
          intro d hd
          simpa using List.mem_takeWhile_imp hd
        have hsplit : rest = rest.takeWhile (fun d => !jsWhitespace d) ++
            rest.dropWhile (fun d => !jsWhitespace d) :=
          (List.takeWhile_append_dropWhile ..).symm
        cases hts : splitWs (rest.dropWhile (fun d => !jsWhitespace d)) with
        | nil =>
          have hdw : ∀ d ∈ rest.dropWhile (fun d => !jsWhitespace d),
              jsWhitespace d = true := splitWs_empty_allws _ hts
          show WsCore (joinSp [c :: rest.takeWhile (fun d => !jsWhitespace d)])
            (c :: rest)
          have hco : WsCore (c :: rest.takeWhile (fun d => !jsWhitespace d))
              (c :: rest) := by
            conv_rhs => rw [hsplit]
            refine WsCore.keep c _ _ hc2 ?_
            have h5 := wsCore_append_left htk
              (WsCore.trail (rest.dropWhile (fun d => !jsWhitespace d)) hdw)
            simpa using h5
          simpa [joinSp] using hco
        | cons t2 ts2 =>
          cases hdwe : rest.dropWhile (fun d => !jsWhitespace d) with
          | nil => rw [hdwe, splitWs_nil] at hts; exact absurd hts (by simp)
          | cons d dtl =>
            have hd : jsWhitespace d = true := by
              have hd0 := dropWhile_head_false hdwe
              simpa using hd0
            subst hn
            have hlen : dtl.length < (c :: rest).length := by
              have h1 : (rest.dropWhile (fun d => !jsWhitespace d)).length ≤
                  rest.length :=
                (List.dropWhile_sublist (fun d => !jsWhitespace d)).length_le
              rw [hdwe] at h1
              simp only [List.length_cons] at h1 ⊢
              omega
            obtain ⟨w2, r2, hr2, hw2, hcore2⟩ := ih dtl.length hlen dtl rfl
            have hts2 : splitWs dtl = t2 :: ts2 := by
              rw [hdwe] at hts
              rw [← splitWs_cons_ws dtl hd]
              exact hts
            show WsCore
              (joinSp ((c :: rest.takeWhile (fun d => !jsWhitespace d)) ::
                t2 :: ts2)) (c :: rest)
            rw [joinSp_cons_cons]
            conv_rhs => rw [hsplit, hdwe]
            rw [show (c :: (rest.takeWhile (fun d => !jsWhitespace d) ++
              d :: dtl)) = (c :: rest.takeWhile (fun d => !jsWhitespace d)) ++
              (d :: dtl) by simp]
            refine wsCore_append_left ?_ ?_
            · intro x hx
              rcases List.mem_cons.1 hx with rfl | hx2
              · exact hc2
              · exact htk x hx2
            · rw [hr2, show d :: (w2 ++ r2) = (d :: w2) ++ r2 by simp]
              refine WsCore.run (d :: w2) _ _ ?_ (by simp) ?_
              · intro x hx
                rcases List.mem_cons.1 hx with rfl | hx2
                · exact hd
                · exact hw2 x hx2
              · rw [← hts2]
                exact hcore2

/-! ### Lines that pass all four name filters stay clean under the
name-assembly operations -/

/-- A line on which none of the four name-filter tests fires. -/
def cleanLine (l : List Char) : Prop :=
  emailTestL l = false ∧ websiteTestL l = false ∧
  phoneTestL l = false ∧ roleTestL l = false

theorem cleanLine_nil : cleanLine [] := by
  refine ⟨rfl, by decide, rfl, by decide⟩

theorem cleanLine_append_right {s v : List Char}
    (h : cleanLine (s ++ v)) : cleanLine s := by
  obtain ⟨h1, h2, h3, h4⟩ := h
  refine ⟨?_, ?_, ?_, ?_⟩
  · cases hb : emailTestL s with
    | false => rfl
    | true => rw [emailTestL_append v hb] at h1; exact h1
  · cases hb : websiteTestL s with
    | false => rfl
    | true => rw [websiteTestL_append v hb] at h2; exact h2
  · cases hb : phoneTestL s with
    | false => rfl
    | true => rw [phoneTestL_append v hb] at h3; exact h3
  · cases hb : roleTestL s with
    | false => rfl
    | true => rw [roleTestL_append v hb] at h4; exact h4

theorem cleanLine_append_left {u t : List Char}
    (h : cleanLine (u ++ t)) : cleanLine t := by
  obtain ⟨h1, h2, h3, h4⟩ := h
  refine ⟨?_, ?_, ?_, ?_⟩
  · cases hb : emailTestL t with
    | false => rfl
    | true => rw [emailTestL_prepend u hb] at h1; exact h1
  · cases hb : websiteTestL t with
    | false => rfl
    | true => rw [websiteTestL_prepend u hb] at h2; exact h2
  · cases hb : phoneTestL t with
    | false => rfl
    | true => rw [phoneTestL_prepend u hb] at h3; exact h3
  · cases hb : roleTestL t with
    | false => rfl
    | true => rw [roleTestL_prepend u hb] at h4; exact h4

theorem cleanLine_of_wsCore {s t : List Char} (hc : WsCore s t)
    (h : cleanLine t) : cleanLine s := by
  obtain ⟨h1, h2, h3, h4⟩ := h
  refine ⟨?_, ?_, ?_, ?_⟩
  · cases hb : emailTestL s with
    | false => rfl
    | true => rw [wsCore_email hc hb] at h1; exact h1
  · cases hb : websiteTestL s with
    | false => rfl
    | true => rw [wsCore_website hc hb] at h2; exact h2
  · cases hb : phoneTestL s with
    | false => rfl
    | true => rw [wsCore_phone hc hb] at h3; exact h3
  · cases hb : roleTestL s with
    | false => rfl
    | true => rw [wsCore_role hc hb] at h4; exact h4

theorem cleanLine_joinSp {l : List Char} (h : cleanLine l) :
    cleanLine (joinSp (splitWs l)) := by
  obtain ⟨w, rest, hl, hw, hcore⟩ := wsCore_joinSp_splitWs l
  subst hl
  exact cleanLine_of_wsCore hcore (cleanLine_append_left h)

/-! ### Trimming lemmas -/

theorem jsTrimL_decomp (l : List Char) : ∃ u v, l = u ++ jsTrimL l ++ v := by
  refine ⟨l.takeWhile jsWhitespace,
    ((l.dropWhile jsWhitespace).reverse.takeWhile jsWhitespace).reverse, ?_⟩
  conv_lhs => rw [← List.takeWhile_append_dropWhile (p := jsWhitespace) (l := l)]
  rw [List.append_assoc]
  congr 1
  unfold jsTrimL
  conv_lhs => rw [← List.reverse_reverse (l.dropWhile jsWhitespace)]
  conv_lhs =>
    rw [← List.takeWhile_append_dropWhile (p := jsWhitespace)
      (l := (l.dropWhile jsWhitespace).reverse)]
  rw [List.reverse_append]

theorem cleanLine_jsTrimL {l : List Char} (h : cleanLine l) :
    cleanLine (jsTrimL l) := by
  obtain ⟨u, v, hl⟩ := jsTrimL_decomp l
  rw [hl] at h
  exact cleanLine_append_left (cleanLine_append_right h)

theorem getLast?_dropWhile_of_ne_nil {α : Type} {p : α → Bool} {l : List α}
    (h : l.dropWhile p ≠ []) : (l.dropWhile p).getLast? = l.getLast? := by
  conv_rhs => rw [← List.takeWhile_append_dropWhile (p := p) (l := l)]
  rw [List.getLast?_append]
  cases hq : (l.dropWhile p).getLast? with
  | none => exact absurd (List.getLast?_eq_none_iff.1 hq) h
  | some a => simp

theorem jsTrimL_head_false {l : List Char} {c : Char}
    (h : (jsTrimL l).head? = some c) : jsWhitespace c = false := by
  unfold jsTrimL at h
  rw [List.head?_reverse] at h
  have hne : (l.dropWhile jsWhitespace).reverse.dropWhile jsWhitespace ≠ [] := by
    intro he
    rw [he] at h
    simp at h
  rw [getLast?_dropWhile_of_ne_nil hne, List.getLast?_reverse] at h
  cases hdw : l.dropWhile jsWhitespace with
  | nil => rw [hdw] at h; simp at h
  | cons a tl =>
    rw [hdw] at h
    simp only [List.head?_cons, Option.some.injEq] at h
    rw [← h]
    exact dropWhile_head_false hdw

theorem jsTrimL_getLast_false {l : List Char} {c : Char}
    (h : (jsTrimL l).getLast? = some c) : jsWhitespace c = false := by
  unfold jsTrimL at h
  rw [List.getLast?_reverse] at h
  cases hq : (l.dropWhile jsWhitespace).reverse.dropWhile jsWhitespace with
  | nil => rw [hq] at h; simp at h
  | cons a tl =>
    rw [hq] at h
    simp only [List.head?_cons, Option.some.injEq] at h
    rw [← h]
    exact dropWhile_head_false hq

theorem jsTrimL_idem (l : List Char) : jsTrimL (jsTrimL l) = jsTrimL l := by
  have h1 : (jsTrimL l).dropWhile jsWhitespace = jsTrimL l := by
    cases hh : jsTrimL l with
    | nil => rfl
    | cons a tl =>
      have ha : jsWhitespace a = false := by
        apply jsTrimL_head_false (l := l)
        rw [hh]
        rfl
      rw [List.dropWhile_cons_of_neg (by simp [ha])]
  have h2 : (jsTrimL l).reverse.dropWhile jsWhitespace = (jsTrimL l).reverse := by
    cases hh : (jsTrimL l).reverse with
    | nil => rfl
    | cons a tl =>
      have ha : jsWhitespace a = false := by
        apply jsTrimL_getLast_false (l := l)
        rw [← List.head?_reverse, hh]
        rfl
      exact List.dropWhile_cons_of_neg (by simp [ha])
  show (((jsTrimL l).dropWhile jsWhitespace).reverse.dropWhile
    jsWhitespace).reverse = jsTrimL l
  rw [h1, h2, List.reverse_reverse]

theorem jsTrimL_of_nonws {l : List Char}
    (h : ∀ c ∈ l, jsWhitespace c = false) : jsTrimL l = l := by
  have h1 : l.dropWhile jsWhitespace = l := by
    cases l with
    | nil => rfl
    | cons a tl => exact List.dropWhile_cons_of_neg (by simp [h a (by simp)])
  have h2 : l.reverse.dropWhile jsWhitespace = l.reverse := by
    cases hh : l.reverse with
    | nil => rfl
    | cons a tl =>
      have ha : a ∈ l := by
        rw [← List.mem_reverse, hh]
        simp
      exact List.dropWhile_cons_of_neg (by simp [h a ha])
  unfold jsTrimL
  rw [h1, h2, List.reverse_reverse]

/-! ### Facts about the line list and the filtered list -/

theorem mem_linesOf {text : List Char} {x : List Char} (h : x ∈ linesOf text) :
    jsTrimL x = x ∧ x ≠ [] := by
  unfold linesOf at h
  obtain ⟨hmem, hne⟩ := List.mem_filter.1 h
  obtain ⟨raw, _, rfl⟩ := List.mem_map.1 hmem
  refine ⟨jsTrimL_idem raw, ?_⟩
  simpa using hne

theorem mem_filteredForName {lines : List (List Char)} {x : List Char}
    (h : x ∈ filteredForName lines) :
    x ∈ lines ∧ emailTestL x = false ∧ websiteTestL x = false ∧
      phoneTestL x = false ∧ roleTestL x = false := by
  unfold filteredForName at h
  obtain ⟨h3, h4⟩ := List.mem_filter.1 h
  obtain ⟨h5, h6⟩ := List.mem_filter.1 h3
  obtain ⟨h7, h8⟩ := List.mem_filter.1 h5
  obtain ⟨h9, h10⟩ := List.mem_filter.1 h7
  exact ⟨h9, by simpa using h10, by simpa using h8, by simpa using h6,
    by simpa using h4⟩

theorem cleanLine_mem_filteredForName {lines : List (List Char)}
    {x : List Char} (h : x ∈ filteredForName lines) : cleanLine x := by
  obtain ⟨_, h1, h2, h3, h4⟩ := mem_filteredForName h
  exact ⟨h1, h2, h3, h4⟩

theorem getD_mem_or {α : Type} (l : List α) (i : Nat) (d : α) :
    l.getD i d = d ∨ l.getD i d ∈ l := by
  induction l generalizing i with
  | nil => left; cases i <;> rfl
  | cons a tl ih =>
    cases i with
    | zero => right; simp
    | succ j =>
      rcases ih j with h | h
      · left; simpa using h
      · right; simp only [List.getD_cons_succ]; exact List.mem_cons_of_mem a h

/-- Both components of the name pair pass none of the four name-filter
    tests, whatever the input lines are. -/
theorem cleanLine_namePair (lines : List (List Char)) :
    cleanLine (namePair lines).1 ∧ cleanLine (namePair lines).2 := by
  unfold namePair
  by_cases hlen :
      (splitWs ((filteredForName lines).headD [])).length ≥ 2
  · rw [if_pos hlen]
    have hnl : cleanLine ((filteredForName lines).headD []) := by
      cases hf2 : filteredForName lines with
      | nil => simpa using cleanLine_nil
      | cons a tl =>
        simp only [List.headD_cons]
        exact cleanLine_mem_filteredForName (by rw [hf2]; simp)
    have hjoin : cleanLine
        (joinSp (splitWs ((filteredForName lines).headD []))) :=
      cleanLine_joinSp hnl
    obtain ⟨p1, p2, ps, hparts⟩ : ∃ p1 p2 ps,
        splitWs ((filteredForName lines).headD []) = p1 :: p2 :: ps := by
      cases hp : splitWs ((filteredForName lines).headD []) with
      | nil => rw [hp] at hlen; simp at hlen
      | cons a tl =>
        cases tl with
        | nil => rw [hp] at hlen; simp at hlen
        | cons b tl2 => exact ⟨a, b, tl2, rfl⟩
    rw [hparts] at hjoin ⊢
    rw [joinSp_cons_cons] at hjoin
    constructor
    · simpa using cleanLine_append_right hjoin
    · have h6 := cleanLine_append_left hjoin
      have h7 : cleanLine ([' '] ++ joinSp (p2 :: ps)) := by simpa using h6
      simpa using cleanLine_append_left h7
  · rw [if_neg hlen]
    constructor
    · rcases getD_mem_or (filteredForName lines) 0 [] with h | h
      · rw [h]; exact cleanLine_nil
      · exact cleanLine_mem_filteredForName h
    · rcases getD_mem_or (filteredForName lines) 1 [] with h | h
      · rw [h]; exact cleanLine_nil
      · exact cleanLine_mem_filteredForName h

/-! ### Inversion of parseCardText and helpers for the field claims -/

theorem parseCardText_some {t : String} {r : ContactRecord}
    (h : parseCardText t = some r) :
    r = parseCardLines (linesOf t.data) := by
  unfold parseCardText at h
  split at h
  · exact absurd h (by simp)
  · injection h with h2
    exact h2.symm

theorem find_field_mem {lines : List (List Char)} {p : List Char → Bool}
    (hlines : ∀ x ∈ lines, jsTrimL x = x)
    (hne : String.mk (jsTrimL ((lines.find? p).getD [])) ≠ "") :
    String.mk (jsTrimL ((lines.find? p).getD [])) ∈ lines.map String.mk := by
  cases hf : lines.find? p with
  | none =>
    rw [hf] at hne
    exact absurd rfl hne
  | some x =>
    have hx : x ∈ lines := List.mem_of_find?_eq_some hf
    simp only [Option.getD_some]
    rw [hlines x hx]
    exact List.mem_map.2 ⟨x, hx, rfl⟩

/-! ### Single-token lines -/

theorem splitWs_head_decomp : ∀ {l t : List Char} {ts : List (List Char)},
    splitWs l = t :: ts →
    ∃ w rest, l = w ++ t ++ rest ∧ (∀ c ∈ w, jsWhitespace c = true) ∧
      splitWs rest = ts := by
  intro l
  induction l with
  | nil => intro t ts h; rw [splitWs_nil] at h; exact absurd h (by simp)
  | cons c rest ih =>
    intro t ts h
    by_cases hc : jsWhitespace c = true
    · rw [splitWs_cons_ws rest hc] at h
      obtain ⟨w, r, hr, hw, hs⟩ := ih h
      refine ⟨c :: w, r, by simp [hr], ?_, hs⟩
      intro x hx
      rcases List.mem_cons.1 hx with rfl | hx2
      · exact hc
      · exact hw x hx2
    · have hc2 : jsWhitespace c = false := by simpa using hc
      rw [splitWs_cons_nonws rest hc2] at h
      injection h with h1 h2
      refine ⟨[], rest.dropWhile (fun d => !jsWhitespace d), ?_, by simp, h2⟩
      rw [← h1]
      simp only [List.nil_append, List.cons_append, List.cons.injEq, true_and]
      exact (List.takeWhile_append_dropWhile ..).symm

theorem splitWs_token_nonws : ∀ {l t : List Char}, t ∈ splitWs l →
    t ≠ [] ∧ ∀ c ∈ t, jsWhitespace c = false := by
  intro l
  generalize hn : l.length = n
  induction n using Nat.strong_induction_on generalizing l with
  | _ n ih =>
    cases l with
    | nil => intro t ht; rw [splitWs_nil] at ht; cases ht
    | cons c rest =>
      intro t ht
      by_cases hc : jsWhitespace c = true
      · rw [splitWs_cons_ws rest hc] at ht
        subst hn
        exact ih rest.length (by simp) rfl ht
      · have hc2 : jsWhitespace c = false := by simpa using hc
        rw [splitWs_cons_nonws rest hc2] at ht
        rcases List.mem_cons.1 ht with rfl | ht2
        · refine ⟨by simp, ?_⟩
          intro x hx
          rcases List.mem_cons.1 hx with rfl | hx2
          · exact hc2
          · simpa using List.mem_takeWhile_imp hx2
        · subst hn
          have hlen : (rest.dropWhile (fun d => !jsWhitespace d)).length <
              (c :: rest).length := by
            have h1 := (List.dropWhile_sublist
              (l := rest) (fun d => !jsWhitespace d)).length_le
            simp only [List.length_cons]
            omega
          exact ih _ hlen rfl ht2

theorem splitWs_singleton_trimmed {l t : List Char} (htr : jsTrimL l = l)
    (h : splitWs l = [t]) : l = t := by
  obtain ⟨w, rest, hl, hw, hrest⟩ := splitWs_head_decomp h
  have hrestws : ∀ c ∈ rest, jsWhitespace c = true :=
    splitWs_empty_allws rest hrest
  have htne : t ≠ [] := (splitWs_token_nonws (by rw [h]; simp)).1
  have hwnil : w = [] := by
    cases hw0 : w with
    | nil => rfl
    | cons a wtl =>
      have h1 : l.head? = some a := by
        rw [hl, hw0]
        simp
      have h2 : jsWhitespace a = false := by
        apply jsTrimL_head_false (l := l)
        rw [htr]
        exact h1
      have h3 : jsWhitespace a = true := hw a (by rw [hw0]; simp)
      rw [h2] at h3
      exact Bool.noConfusion h3
  subst hwnil
  have hrnil : rest = [] := by
    cases hr0 : rest with
    | nil => rfl
    | cons a rtl =>
      have h1 : l.getLast? = (a :: rtl).getLast? := by
        rw [hl, hr0]
        simp only [List.nil_append]
        rw [List.getLast?_append]
        cases hg : (a :: rtl).getLast? with
        | none => exact absurd (List.getLast?_eq_none_iff.1 hg) (by simp)
        | some b => simp
      obtain ⟨b, hb⟩ : ∃ b, (a :: rtl).getLast? = some b := by
        cases hg : (a :: rtl).getLast? with
        | none => exact absurd (List.getLast?_eq_none_iff.1 hg) (by simp)
        | some b => exact ⟨b, rfl⟩
      have hbmem : b ∈ a :: rtl := List.mem_of_getLast?_eq_some hb
      have h2 : jsWhitespace b = false := by
        apply jsTrimL_getLast_false (l := l)
        rw [htr, h1, hb]
      have h3 : jsWhitespace b = true := by
        apply hrestws
        rw [hr0]
        exact hbmem
      rw [h2] at h3
      exact Bool.noConfusion h3
  subst hrnil
  simpa using hl

/-! ### The claims -/

/-- The RawText entity of the spec: the ordered trimmed non-empty lines
    of the input, as strings. -/
def rawText (t : String) : List String := (linesOf t.data).map String.mk

/-- C1, counterexample: on the input of the claim the company field is
    not the empty string, so the claim as stated is false.  The company
    scan accepts the line Beispiel GmbH, which passes every company
    filter. -/
theorem spec_c1_counterexample :
    Option.map ContactRecord.company
      (parseCardText "Jane Doe\nCEO\nBeispiel GmbH\nMusterstraße 1, Berlin") ≠
      some "" := by decide

/-- C1, amended: on the input the parser returns firstName Jane,
    lastName Doe, and company Beispiel GmbH (not empty); the CEO line is
    selected neither as the name line nor as the company line, and the
    address line is excluded from company candidacy. -/
theorem spec_c1_amended :
    parseCardText "Jane Doe\nCEO\nBeispiel GmbH\nMusterstraße 1, Berlin" =
      some { firstName := "Jane", lastName := "Doe",
             company := "Beispiel GmbH", phone := "", email := "",
             website := "" } := by decide

/-- C2, counterexample: on empty input parseCardText does not return a
    record carrying the six fields as empty strings; the source returns
    the empty object, which has no fields at all (modelled as none). -/
theorem spec_c2_counterexample :
    parseCardText "" ≠
      some { firstName := "", lastName := "", company := "", phone := "",
             email := "", website := "" } := by decide

/-- C2, amended: on empty or absent input parseCardText returns the
    empty object, which carries none of the six fields. -/
theorem spec_c2_amended :
    parseCardText "" = none ∧ parseCard none = none := ⟨rfl, rfl⟩

/-- C3, counterexample: on the input Acme-newline-Box the first
    name-filtered line splits into exactly one token, yet lastName is
    Box (the second filtered line), not the empty string: the fallback
    branch is reachable and behaviourally distinct. -/
theorem spec_c3_counterexample :
    Option.map ContactRecord.lastName (parseCardText "Acme\nBox") =
      some "Box" ∧
    (splitWs ((filteredForName
      (linesOf ("Acme\nBox" : String).data)).headD [])).length = 1 := by
  decide

/-- C3, amended: when the first name-filtered line splits into exactly
    one whitespace token, firstName is that token and lastName is the
    second name-filtered line when present (empty otherwise): the
    fallback that indexes the filtered list at positions 0 and 1 is
    reachable and does produce behaviour distinct from leaving lastName
    empty. -/
theorem spec_c3_amended (t : String) (r : ContactRecord)
    (h : parseCardText t = some r)
    (h1 : (splitWs ((filteredForName (linesOf t.data)).headD [])).length = 1) :
    r.firstName = String.mk
      ((splitWs ((filteredForName (linesOf t.data)).headD [])).headD []) ∧
    r.lastName = String.mk ((filteredForName (linesOf t.data)).getD 1 []) := by
  have hr := parseCardText_some h
  subst hr
  have hnot : ¬ ((splitWs ((filteredForName (linesOf t.data)).headD
      [])).length ≥ 2) := by omega
  have hnp : namePair (linesOf t.data) =
      ((filteredForName (linesOf t.data)).getD 0 [],
       (filteredForName (linesOf t.data)).getD 1 []) := by
    unfold namePair
    rw [if_neg hnot]
  cases hf : filteredForName (linesOf t.data) with
  | nil =>
    rw [hf] at h1
    simp [splitWs_nil] at h1
  | cons x ftl =>
    have hxmem : x ∈ filteredForName (linesOf t.data) := by rw [hf]; simp
    have hxlines : x ∈ linesOf t.data := (mem_filteredForName hxmem).1
    have hxtrim : jsTrimL x = x := (mem_linesOf hxlines).1
    rw [hf] at h1
    simp only [List.headD_cons] at h1
    obtain ⟨tok, htok⟩ : ∃ tok, splitWs x = [tok] := by
      cases hp : splitWs x with
      | nil => rw [hp] at h1; simp at h1
      | cons a tl =>
        cases tl with
        | nil => exact ⟨a, rfl⟩
        | cons b tl2 => rw [hp] at h1; simp at h1
    have hxtok : x = tok := splitWs_singleton_trimmed hxtrim htok
    constructor
    · show String.mk (jsTrimL (namePair (linesOf t.data)).1) = _
      rw [hnp, hf]
      simp only [List.getD_cons_zero, List.headD_cons, htok, List.headD_cons]
      rw [hxtrim, hxtok]
    · show String.mk (jsTrimL (namePair (linesOf t.data)).2) = _
      rw [hnp, hf]
      simp only [List.getD_cons_succ]
      rcases getD_mem_or ftl 0 [] with hg | hg
      · rw [hg]
        rfl
      · have hmem2 : ftl.getD 0 [] ∈ filteredForName (linesOf t.data) := by
          rw [hf]
          exact List.mem_cons_of_mem x hg
        rw [(mem_linesOf (mem_filteredForName hmem2).1).1]

/-- C3, witness for the amended theorem at the input Acme-newline-Box. -/
theorem spec_c3_amended_witness :
    (splitWs ((filteredForName
      (linesOf ("Acme\nBox" : String).data)).headD [])).length = 1 ∧
    (("Acme" : String) = String.mk ((splitWs ((filteredForName
        (linesOf ("Acme\nBox" : String).data)).headD [])).headD []) ∧
     ("Box" : String) = String.mk ((filteredForName
        (linesOf ("Acme\nBox" : String).data)).getD 1 [])) :=
  ⟨by decide, spec_c3_amended "Acme\nBox"
    { firstName := "Acme", lastName := "Box", company := "Box", phone := "",
      email := "", website := "" } (by decide) (by decide)⟩

/-- C4, counterexample: on the empty string the source does not return a
    record with the six string fields; it returns the empty object
    (modelled as none), so the claim as stated fails at the empty
    input. -/
theorem spec_c4_counterexample : parseCardText "" = none := rfl

/-- C4, amended: for every non-empty input string parseCardText
    terminates and returns a full record with the six string fields; on
    the empty string it returns the fieldless empty object.  Totality of
    the embedding witnesses termination for every input. -/
theorem spec_c4_amended (t : String) (h : t ≠ "") :
    (parseCardText t).isSome = true := by
  unfold parseCardText
  rw [if_neg h]
  rfl

/-- C4, witness for the amended theorem at a non-empty input. -/
theorem spec_c4_amended_witness :
    (("x" : String) ≠ "") ∧ (parseCardText "x").isSome = true :=
  ⟨by decide, spec_c4_amended "x" (by decide)⟩

/-- C5, counterexample: on the single-line input a-space-http-colon-
    slash-slash-b the code selects that line as the website although it
    does not satisfy the claimed rule (it contains the scheme only in a
    non-initial position and holds no www-dot), so the claim as stated
    is false. -/
theorem spec_c5_counterexample :
    Option.map ContactRecord.website (parseCardText "a http://b") =
      some "a http://b" ∧
    websiteSpecOrig ("a http://b" : String).data = false := by decide

/-- C5, amended: the website field is the trimmed first line containing,
    anywhere and case-insensitively, www-dot or the http or https
    scheme; initial position is not required. -/
theorem spec_c5_amended (t : String) (r : ContactRecord)
    (h : parseCardText t = some r) :
    r.website = String.mk (jsTrimL
      (((linesOf t.data).find? websiteSpecAmended).getD [])) := by
  have hr := parseCardText_some h
  subst hr
  rfl

/-- C5, witness for the amended theorem at a concrete input. -/
theorem spec_c5_amended_witness :
    (parseCardText "www.a" =
      some { firstName := "", lastName := "", company := "", phone := "",
             email := "", website := "www.a" }) ∧
    ("www.a" : String) = String.mk (jsTrimL
      (((linesOf ("www.a" : String).data).find? websiteSpecAmended).getD [])) :=
  ⟨by decide, spec_c5_amended "www.a"
    { firstName := "", lastName := "", company := "", phone := "",
      email := "", website := "www.a" } (by decide)⟩

/-- C6: on the five-line example input the parser returns exactly the
    record claimed by the spec. -/
theorem spec_c6 :
    parseCardText "John Smith\nAcme Corp\njohn@acme.com\n+1 555-123-4567\nwww.acme.com" =
      some { firstName := "John", lastName := "Smith", company := "Acme Corp",
             phone := "+1 555-123-4567", email := "john@acme.com",
             website := "www.acme.com" } := by decide

/-- C7: the email, phone and website scans are independent passes over
    the full line list; there is an input whose returned email and phone
    are the same (non-empty) line. -/
theorem spec_c7 : ∃ (t : String) (r : ContactRecord),
    parseCardText t = some r ∧ r.email = r.phone ∧ r.email ≠ "" :=
  ⟨"a@b.c 0123456",
   { firstName := "", lastName := "", company := "", phone := "a@b.c 0123456",
     email := "a@b.c 0123456", website := "" },
   by decide, rfl, by decide⟩

/-- C8: parseCardText is modelled as a pure function, so two invocations
    on the same text yield identical results; there is no hidden
    state. -/
theorem spec_c8 (t : String) : parseCardText t = parseCardText t := rfl

/-- C9: every non-empty email, phone, website or company field is an
    entire trimmed line of the input, an element of RawText, including
    any text on that line outside the matched pattern. -/
theorem spec_c9 (t : String) (r : ContactRecord)
    (h : parseCardText t = some r) :
    (r.email ≠ "" → r.email ∈ rawText t) ∧
    (r.phone ≠ "" → r.phone ∈ rawText t) ∧
    (r.website ≠ "" → r.website ∈ rawText t) ∧
    (r.company ≠ "" → r.company ∈ rawText t) := by
  have hr := parseCardText_some h
  subst hr
  have hlines : ∀ x ∈ linesOf t.data, jsTrimL x = x :=
    fun x hx => (mem_linesOf hx).1
  exact ⟨fun hne => find_field_mem hlines hne,
         fun hne => find_field_mem hlines hne,
         fun hne => find_field_mem hlines hne,
         fun hne => find_field_mem hlines hne⟩

/-- C9, witness at a concrete input whose email and phone fields are
    non-empty. -/
theorem spec_c9_witness :
    ("x@y.z" : String) ∈ rawText "x@y.z\n0123456" ∧
    ("0123456" : String) ∈ rawText "x@y.z\n0123456" :=
  ⟨(spec_c9 "x@y.z\n0123456"
      { firstName := "", lastName := "", company := "",
        phone := "0123456", email := "x@y.z", website := "" } (by decide)).1
      (by decide),
   (spec_c9 "x@y.z\n0123456"
      { firstName := "", lastName := "", company := "",
        phone := "0123456", email := "x@y.z", website := "" } (by decide)).2.1
      (by decide)⟩

/-- C10: a non-empty firstName or lastName never matches the email,
    website or phone pattern and never contains a role-title blacklist
    word (case-insensitively), because the name is assembled only from
    lines that survived all four name filters. -/
theorem spec_c10 (t : String) (r : ContactRecord)
    (h : parseCardText t = some r) :
    (r.firstName ≠ "" →
      emailTestL r.firstName.data = false ∧
      websiteTestL r.firstName.data = false ∧
      phoneTestL r.firstName.data = false ∧
      roleTestL r.firstName.data = false) ∧
    (r.lastName ≠ "" →
      emailTestL r.lastName.data = false ∧
      websiteTestL r.lastName.data = false ∧
      phoneTestL r.lastName.data = false ∧
      roleTestL r.lastName.data = false) := by
  have hr := parseCardText_some h
  subst hr
  have hc := cleanLine_namePair (linesOf t.data)
  exact ⟨fun _ => cleanLine_jsTrimL hc.1, fun _ => cleanLine_jsTrimL hc.2⟩

/-- C10, witness at an input with a non-empty first and last name. -/
theorem spec_c10_witness :
    (emailTestL ("Jana" : String).data = false ∧
     websiteTestL ("Jana" : String).data = false ∧
     phoneTestL ("Jana" : String).data = false ∧
     roleTestL ("Jana" : String).data = false) ∧
    (emailTestL ("Doe" : String).data = false ∧
     websiteTestL ("Doe" : String).data = false ∧
     phoneTestL ("Doe" : String).data = false ∧
     roleTestL ("Doe" : String).data = false) :=
  ⟨(spec_c10 "Jana Doe"
      { firstName := "Jana", lastName := "Doe",
        company := "", phone := "", email := "", website := "" }
      (by decide)).1 (by decide),
   (spec_c10 "Jana Doe"
      { firstName := "Jana", lastName := "Doe",
        company := "", phone := "", email := "", website := "" }
      (by decide)).2 (by decide)⟩
